import Mathlib

/-!
Verification of the CMARB arbitrage engine: fee model, level aggregation,
multi-level strategy search, signal classification, annualized return,
exit-profit calculation and opportunity sorting, embedded over `ℚ`.
-/

namespace CMARB

/-- One order-book price level: `{price, size}`. -/
structure PriceLevel where
  price : ℚ
  size : ℚ
deriving DecidableEq, Repr

/-- Result record of `calcOpinionTradeFee`:
`{feeRate, calculatedFee, actualFee, isMinFee}`. -/
structure FeeResult where
  feeRate : ℚ
  calculatedFee : ℚ
  actualFee : ℚ
  isMinFee : Bool
deriving DecidableEq, Repr

/-! ### Fee model, first variant (`fees.js`, with points rebate) -/

namespace FeesV1

/-- Fee constant `FEE_K = 0.08`. -/
def FEE_K : ℚ := 8 / 100

/-- Minimum fee `MIN_FEE_USD = 0.5`. -/
def MIN_FEE_USD : ℚ := 1 / 2

/-- Points rebate rate `POINT_VALUE / POINT_COST = 10 / 20 = 0.5`. -/
def REBATE_RATE : ℚ := 1 / 2

/-- `nominalFee(p) = FEE_K * p * (1 - p)` for `p` in `(0,1)`, else `0`. -/
def nominalFee (p : ℚ) : ℚ :=
  if p ≤ 0 ∨ 1 ≤ p then 0 else FEE_K * p * (1 - p)

/-- `effectiveFee(p) = nominalFee(p) * (1 - REBATE_RATE)`. -/
def effectiveFee (p : ℚ) : ℚ :=
  nominalFee p * (1 - REBATE_RATE)

/-- `calcOpinionTradeFee(price, shares)` with the `$0.5` minimum and the
rebate-adjusted fee rate. Ineligible inputs yield the all-zero record. -/
def calcOpinionTradeFee (price shares : ℚ) : FeeResult :=
  if price ≤ 0 ∨ 1 ≤ price ∨ shares ≤ 0 then
    { feeRate := 0, calculatedFee := 0, actualFee := 0, isMinFee := false }
  else
    let feeRate := effectiveFee price
    let notional := price * shares
    let calculatedFee := notional * feeRate
    let actualFee := max calculatedFee MIN_FEE_USD
    { feeRate := feeRate, calculatedFee := calculatedFee,
      actualFee := actualFee,
      isMinFee := decide (calculatedFee < MIN_FEE_USD) }

end FeesV1

/-! ### Fee model, second variant (`fees.js`, no rebate; per-fill minimum) -/

namespace FeesV2

/-- Fee constant `FEE_K = 0.08`. -/
def FEE_K : ℚ := 8 / 100

/-- Minimum fee `MIN_FEE_USD = 0.5`. -/
def MIN_FEE_USD : ℚ := 1 / 2

/-- `nominalFee(p) = FEE_K * p * (1 - p)` for `p` in `(0,1)`, else `0`. -/
def nominalFee (p : ℚ) : ℚ :=
  if p ≤ 0 ∨ 1 ≤ p then 0 else FEE_K * p * (1 - p)

/-- `calcOpinionTradeFee(price, shares)` with the `$0.5` minimum and the
nominal fee rate (no rebate). Ineligible inputs yield the all-zero record. -/
def calcOpinionTradeFee (price shares : ℚ) : FeeResult :=
  if price ≤ 0 ∨ 1 ≤ price ∨ shares ≤ 0 then
    { feeRate := 0, calculatedFee := 0, actualFee := 0, isMinFee := false }
  else
    let feeRate := nominalFee price
    let notional := price * shares
    let calculatedFee := notional * feeRate
    let actualFee := max calculatedFee MIN_FEE_USD
    { feeRate := feeRate, calculatedFee := calculatedFee,
      actualFee := actualFee,
      isMinFee := decide (calculatedFee < MIN_FEE_USD) }

end FeesV2

/-- The `calcFee` closure wired in the older hook:
`(price, shares) => calcOpinionTradeFee(price, shares).actualFee` over the
rebate fee variant. -/
def opCalcFeeV1 (price shares : ℚ) : ℚ :=
  (FeesV1.calcOpinionTradeFee price shares).actualFee

/-- The `calcFee` closure of `useArbitrage`:
`(price, shares) => calcOpinionTradeFee(price, shares).actualFee` over the
no-rebate fee variant. -/
def opCalcFeeV2 (price shares : ℚ) : ℚ :=
  (FeesV2.calcOpinionTradeFee price shares).actualFee

/-! ### Level aggregation (`calcCumulativeLevel`) -/

/-- Result of `calcCumulativeLevel`: `{avgPrice, totalSize, levelDetails}`. -/
structure CumLevel where
  avgPrice : ℚ
  totalSize : ℚ
  levelDetails : List PriceLevel
deriving DecidableEq, Repr

/-- `calcCumulativeLevel(asks, levels)`: walk the first `levels` entries,
skip zero-size rows, accumulate total size and value, keep the consumed
rows in `levelDetails`, and report the size-weighted average price. -/
def calcCumulativeLevel (asks : List PriceLevel) (levels : ℕ) : CumLevel :=
  let taken := (asks.take levels).filter (fun l => l.size != 0)
  let totalSize := (taken.map (fun l => l.size)).sum
  let totalValue := (taken.map (fun l => l.price * l.size)).sum
  { avgPrice := if 0 < totalSize then totalValue / totalSize else 0,
    totalSize := totalSize,
    levelDetails := taken }

/-! ### Multi-level fee (`calcMultiLevelFee`) -/

/-- The loop body of `calcMultiLevelFee`: walk the levels in order, at each
level consume `min(level.size, remainingShares)` and charge `calcFee` on the
consumed amount at the level price, stopping when shares are exhausted. -/
def feeWalk (calcFee : ℚ → ℚ → ℚ) : List PriceLevel → ℚ → ℚ
  | [], _ => 0
  | l :: rest, remaining =>
    if remaining ≤ 0 then 0
    else
      let s := min l.size remaining
      if s ≤ 0 then feeWalk calcFee rest remaining
      else calcFee l.price s + feeWalk calcFee rest (remaining - s)

/-- `calcMultiLevelFee(levelDetails, sharesToUse, calcFee)`. -/
def calcMultiLevelFee (levelDetails : List PriceLevel) (sharesToUse : ℚ)
    (calcFee : ℚ → ℚ → ℚ) : ℚ :=
  if levelDetails = [] ∨ sharesToUse ≤ 0 then 0
  else feeWalk calcFee levelDetails sharesToUse

/-! ### Strategy search (`findBestStrategy`) -/

/-- The strategy record built by `findBestStrategy` for one depth pair. -/
structure Strategy where
  opinionLevels : ℕ
  polyLevels : ℕ
  opinionAvgPrice : ℚ
  polyAvgPrice : ℚ
  shares : ℚ
  costPerShare : ℚ
  totalCost : ℚ
  fee : ℚ
  profit : ℚ
  profitPct : ℚ
deriving DecidableEq, Repr

/-- The body of one iteration of `findBestStrategy`: aggregate both sides,
skip if either side has no size, otherwise price the combination. -/
def evalCombo (opinionAsks polyAsks : List PriceLevel)
    (calcFee : ℚ → ℚ → ℚ) (opLevels polyLevels : ℕ) : Option Strategy :=
  let opCum := calcCumulativeLevel opinionAsks opLevels
  let polyCum := calcCumulativeLevel polyAsks polyLevels
  if opCum.totalSize ≤ 0 ∨ polyCum.totalSize ≤ 0 then none
  else
    let shares := min opCum.totalSize polyCum.totalSize
    let costPerShare := opCum.avgPrice + polyCum.avgPrice
    let totalCost := costPerShare * shares
    let fee := calcMultiLevelFee opCum.levelDetails shares calcFee
    let profit := shares - totalCost - fee
    let profitPct := if 0 < totalCost then profit / totalCost else -999
    some { opinionLevels := opLevels, polyLevels := polyLevels,
           opinionAvgPrice := opCum.avgPrice, polyAvgPrice := polyCum.avgPrice,
           shares := shares, costPerShare := costPerShare,
           totalCost := totalCost, fee := fee, profit := profit,
           profitPct := profitPct }

/-- Enumeration order of the nested loops `opLevels = 1..3`, `polyLevels = 1..3`. -/
def comboOrder : List (ℕ × ℕ) :=
  [(1, 1), (1, 2), (1, 3), (2, 1), (2, 2), (2, 3), (3, 1), (3, 2), (3, 3)]

/-- The update of the running best: replace only on a strictly greater
`profitPct` (the initial best is `-Infinity`, so any candidate replaces it). -/
def stepBest (best cand : Option Strategy) : Option Strategy :=
  match cand with
  | none => best
  | some c =>
    match best with
    | none => some c
    | some b => if b.profitPct < c.profitPct then some c else some b

/-- `findBestStrategy(opinionAsks, polyAsks, calcFee)`: exhaustively
enumerate all 9 depth combinations and keep the first strict maximum of
`profitPct`. -/
def findBestStrategy (opinionAsks polyAsks : List PriceLevel)
    (calcFee : ℚ → ℚ → ℚ) : Option Strategy :=
  comboOrder.foldl
    (fun best d => stepBest best (evalCombo opinionAsks polyAsks calcFee d.1 d.2))
    none

/-! ### Signal classification -/

/-- The coarse profitability tier. -/
inductive Signal where
  | HOT
  | GO
  | NONE
deriving DecidableEq, Repr

/-- `settings.hotSpreadThreshold = 0.05`. -/
def hotSpreadThreshold : ℚ := 5 / 100

/-- `settings.minSpreadAlert = 0.02`. -/
def minSpreadAlert : ℚ := 2 / 100

/-- The signal assignment of `useArbitrage`: `HOT` above the hot threshold,
else `GO` above the alert threshold, else `NONE`. -/
def classifySignal (netProfit : ℚ) : Signal :=
  if hotSpreadThreshold < netProfit then .HOT
  else if minSpreadAlert < netProfit then .GO
  else .NONE

/-! ### Settlement days and annualized return -/

/-- Milliseconds per day, `1000 * 60 * 60 * 24`. -/
def msPerDay : ℚ := 86400000

/-- `getDaysToSettlement`: given the settlement date and today as timestamps
already truncated to midnight (milliseconds), take the ceiling of the
difference in days and return it only when strictly positive. -/
def getDaysToSettlement (settlementMid todayMid : ℤ) : Option ℤ :=
  let diffDays : ℤ := Int.ceil (((settlementMid - todayMid : ℤ) : ℚ) / msPerDay)
  if 0 < diffDays then some diffDays else none

/-- `calcAPY(profitPct, daysToSettlement)` from the multi-level hook:
zero when days are unknown or non-positive, or when `profitPct ≤ 0`. -/
def calcAPY (profitPct : ℚ) (daysToSettlement : Option ℤ) : ℚ :=
  match daysToSettlement with
  | none => 0
  | some d => if d ≤ 0 ∨ profitPct ≤ 0 then 0 else profitPct * (365 / (d : ℚ))

/-- `calcAnnualizedReturn(profitPct, daysToSettlement)` from the market-table
component: `null` when days are unknown or non-positive, otherwise
`profitPct * (365 / daysToSettlement)` for every `profitPct`. -/
def calcAnnualizedReturn (profitPct : ℚ) (daysToSettlement : Option ℤ) : Option ℚ :=
  match daysToSettlement with
  | none => none
  | some d => if d ≤ 0 then none else some (profitPct * (365 / (d : ℚ)))

/-! ### Exit-profit calculation (`usePositions`) -/

/-- The `exitProfit` record of `usePositions`. -/
structure ExitRecord where
  shares : ℚ
  entryCost : ℚ
  exitValue : ℚ
  exitFee : ℚ
  netProfit : ℚ
  profitPct : ℚ
  entryPriceSum : ℚ
  exitPriceSum : ℚ
  canExit : Bool
deriving DecidableEq, Repr

/-- One exit-profit evaluation of `usePositions` for a hedge whose
fee-bearing (Opinion) leg has entry average `opinionAvg` and current bid
`opinionBid`, the other (Polymarket) leg `otherAvg`/`otherBid`, with the
share counts of the legs and the configured `exitThreshold`. -/
def computeExitProfit (opinionAvg otherAvg opinionBid otherBid
    opinionShares otherShares exitThreshold : ℚ) : ExitRecord :=
  let shares := min opinionShares otherShares
  let entryCost := (opinionAvg + otherAvg) * shares
  let entryFee := (FeesV2.calcOpinionTradeFee opinionAvg shares).actualFee
  let exitValue := (opinionBid + otherBid) * shares
  let exitFee := (FeesV2.calcOpinionTradeFee opinionBid shares).actualFee
  let netProfit := exitValue - exitFee - entryCost - entryFee
  let profitPct := if 0 < entryCost + entryFee then netProfit / (entryCost + entryFee) else 0
  let entryPriceSum := opinionAvg + otherAvg
  let exitPriceSum := opinionBid + otherBid
  { shares := shares,
    entryCost := entryCost + entryFee,
    exitValue := exitValue - exitFee,
    exitFee := exitFee,
    netProfit := netProfit,
    profitPct := profitPct,
    entryPriceSum := entryPriceSum,
    exitPriceSum := exitPriceSum,
    canExit := decide (0 < netProfit) && decide (exitThreshold ≤ exitPriceSum) }

/-! ### Opportunity sorting (`sortOpportunities`) -/

/-- The fields of an opportunity inspected by `sortOpportunities`. -/
structure Opportunity where
  netProfit : ℚ
  apy : ℚ
  outcome : String
deriving DecidableEq

/-- The `sortBy` parameter of `sortOpportunities`. -/
inductive SortKey where
  | apy
  | netProfit
deriving DecidableEq

/-- The numeric key read by the comparator for a given `sortBy`. -/
def keyOf (k : SortKey) (o : Opportunity) : ℚ :=
  match k with
  | .apy => o.apy
  | .netProfit => o.netProfit

/-- The comparator of `sortOpportunities` as a boolean order: descending on
the requested key, with the outcome name as tiebreaker on equal keys. -/
def sortLE (k : SortKey) (a b : Opportunity) : Bool :=
  if keyOf k a = keyOf k b then decide (a.outcome ≤ b.outcome)
  else decide (keyOf k b < keyOf k a)

/-- `sortOpportunities(opportunities, sortBy)`: sort a copy of the list by
the comparator, leaving the input list untouched. -/
def sortOpportunities (opportunities : List Opportunity) (sortBy : SortKey) :
    List Opportunity :=
  opportunities.mergeSort (sortLE sortBy)

/-! ### The missing-NO-book path of `useArbitrage` -/

/-- The ask-book extraction `opinionNo?.asks || []` / `polyNo?.asks || []`:
an absent NO-side quote contributes an empty ask list. -/
def asksOf : Option (List PriceLevel) → List PriceLevel
  | none => []
  | some a => a

/-- One hedge direction of `useArbitrage`: the asks of the YES leg together with
the (possibly absent) complementary NO book, run through the multi-level
strategy search. -/
def strategyWithNoBook (yesAsks : List PriceLevel)
    (noBook : Option (List PriceLevel)) (calcFee : ℚ → ℚ → ℚ) : Option Strategy :=
  findBestStrategy yesAsks (asksOf noBook) calcFee

/-! ### Spec-side reference: the per-level fee consumption plan -/

/-- Reference definition written from the spec words of §4.3 step 5 (for the
refinement proof of the multi-level fee): walk `levelDetails` in level
order, consume `min(levelSize, remainingShares)` at each level until the
shares are exhausted, and record each consumed fill as a
`(price, consumedQuantity)` pair. -/
def specConsumptionPlan : List PriceLevel → ℚ → List PriceLevel
  | [], _ => []
  | l :: rest, remaining =>
    if remaining ≤ 0 then []
    else
      let s := min l.size remaining
      if s ≤ 0 then specConsumptionPlan rest remaining
      else ⟨l.price, s⟩ :: specConsumptionPlan rest (remaining - s)

/-! ## Helper lemmas -/

attribute [local semireducible] Rat.add Rat.mul Rat.sub Rat.inv Rat.ofScientific

namespace FeesV1

theorem fee_of_bad1 {p s : ℚ} (h : p ≤ 0 ∨ 1 ≤ p ∨ s ≤ 0) :
    calcOpinionTradeFee p s = ⟨0, 0, 0, false⟩ := by
  simp only [calcOpinionTradeFee]
  rw [if_pos h]

theorem fee_of_good1 {p s : ℚ} (h0 : 0 < p) (h1 : p < 1) (hs : 0 < s) :
    calcOpinionTradeFee p s =
      ⟨effectiveFee p, p * s * effectiveFee p,
       max (p * s * effectiveFee p) MIN_FEE_USD,
       decide (p * s * effectiveFee p < MIN_FEE_USD)⟩ := by
  simp only [calcOpinionTradeFee]
  rw [if_neg (by push_neg; exact ⟨h0, h1, hs⟩)]

theorem effectiveFee_nonneg (p : ℚ) : 0 ≤ effectiveFee p := by
  unfold effectiveFee nominalFee REBATE_RATE FEE_K
  split_ifs with h
  · norm_num
  · push_neg at h
    obtain ⟨h0, h1⟩ := h
    nlinarith

theorem calc_nonneg1 (p s : ℚ) : 0 ≤ (calcOpinionTradeFee p s).calculatedFee := by
  by_cases h : p ≤ 0 ∨ 1 ≤ p ∨ s ≤ 0
  · rw [fee_of_bad1 h]
  · push_neg at h
    obtain ⟨h0, h1, hs⟩ := h
    rw [fee_of_good1 h0 h1 hs]
    exact mul_nonneg (mul_nonneg h0.le hs.le) (effectiveFee_nonneg p)

theorem calc_le_actual1 (p s : ℚ) :
    (calcOpinionTradeFee p s).calculatedFee ≤ (calcOpinionTradeFee p s).actualFee := by
  by_cases h : p ≤ 0 ∨ 1 ≤ p ∨ s ≤ 0
  · rw [fee_of_bad1 h]
  · push_neg at h
    obtain ⟨h0, h1, hs⟩ := h
    rw [fee_of_good1 h0 h1 hs]
    exact le_max_left _ _

theorem actual_nonneg1 (p s : ℚ) : 0 ≤ (calcOpinionTradeFee p s).actualFee :=
  le_trans (calc_nonneg1 p s) (calc_le_actual1 p s)

theorem min_le_actual1 {p s : ℚ} (h0 : 0 < p) (h1 : p < 1) (hs : 0 < s) :
    MIN_FEE_USD ≤ (calcOpinionTradeFee p s).actualFee := by
  rw [fee_of_good1 h0 h1 hs]
  exact le_max_right _ _

theorem actual_mono1 (p : ℚ) {s1 s2 : ℚ} (h : s1 ≤ s2) :
    (calcOpinionTradeFee p s1).actualFee ≤ (calcOpinionTradeFee p s2).actualFee := by
  by_cases hb : p ≤ 0 ∨ 1 ≤ p ∨ s1 ≤ 0
  · rcases hb with hb | hb | hb
    · rw [fee_of_bad1 (Or.inl hb), fee_of_bad1 (Or.inl hb)]
    · rw [fee_of_bad1 (Or.inr (Or.inl hb)), fee_of_bad1 (Or.inr (Or.inl hb))]
    · rw [fee_of_bad1 (Or.inr (Or.inr hb))]
      exact actual_nonneg1 p s2
  · push_neg at hb
    obtain ⟨h0, h1, hs1⟩ := hb
    have hs2 : 0 < s2 := lt_of_lt_of_le hs1 h
    rw [fee_of_good1 h0 h1 hs1, fee_of_good1 h0 h1 hs2]
    have key : p * s1 * effectiveFee p ≤ p * s2 * effectiveFee p :=
      mul_le_mul_of_nonneg_right (mul_le_mul_of_nonneg_left h h0.le) (effectiveFee_nonneg p)
    exact max_le_max key (le_refl _)

end FeesV1

namespace FeesV2

theorem fee_of_bad2 {p s : ℚ} (h : p ≤ 0 ∨ 1 ≤ p ∨ s ≤ 0) :
    calcOpinionTradeFee p s = ⟨0, 0, 0, false⟩ := by
  simp only [calcOpinionTradeFee]
  rw [if_pos h]

theorem fee_of_good2 {p s : ℚ} (h0 : 0 < p) (h1 : p < 1) (hs : 0 < s) :
    calcOpinionTradeFee p s =
      ⟨nominalFee p, p * s * nominalFee p,
       max (p * s * nominalFee p) MIN_FEE_USD,
       decide (p * s * nominalFee p < MIN_FEE_USD)⟩ := by
  simp only [calcOpinionTradeFee]
  rw [if_neg (by push_neg; exact ⟨h0, h1, hs⟩)]

theorem nominalFee_nonneg (p : ℚ) : 0 ≤ nominalFee p := by
  unfold nominalFee FEE_K
  split_ifs with h
  · norm_num
  · push_neg at h
    obtain ⟨h0, h1⟩ := h
    nlinarith

theorem calc_nonneg2 (p s : ℚ) : 0 ≤ (calcOpinionTradeFee p s).calculatedFee := by
  by_cases h : p ≤ 0 ∨ 1 ≤ p ∨ s ≤ 0
  · rw [fee_of_bad2 h]
  · push_neg at h
    obtain ⟨h0, h1, hs⟩ := h
    rw [fee_of_good2 h0 h1 hs]
    exact mul_nonneg (mul_nonneg h0.le hs.le) (nominalFee_nonneg p)

theorem calc_le_actual2 (p s : ℚ) :
    (calcOpinionTradeFee p s).calculatedFee ≤ (calcOpinionTradeFee p s).actualFee := by
  by_cases h : p ≤ 0 ∨ 1 ≤ p ∨ s ≤ 0
  · rw [fee_of_bad2 h]
  · push_neg at h
    obtain ⟨h0, h1, hs⟩ := h
    rw [fee_of_good2 h0 h1 hs]
    exact le_max_left _ _

theorem actual_nonneg2 (p s : ℚ) : 0 ≤ (calcOpinionTradeFee p s).actualFee :=
  le_trans (calc_nonneg2 p s) (calc_le_actual2 p s)

theorem min_le_actual2 {p s : ℚ} (h0 : 0 < p) (h1 : p < 1) (hs : 0 < s) :
    MIN_FEE_USD ≤ (calcOpinionTradeFee p s).actualFee := by
  rw [fee_of_good2 h0 h1 hs]
  exact le_max_right _ _

theorem actual_mono2 (p : ℚ) {s1 s2 : ℚ} (h : s1 ≤ s2) :
    (calcOpinionTradeFee p s1).actualFee ≤ (calcOpinionTradeFee p s2).actualFee := by
  by_cases hb : p ≤ 0 ∨ 1 ≤ p ∨ s1 ≤ 0
  · rcases hb with hb | hb | hb
    · rw [fee_of_bad2 (Or.inl hb), fee_of_bad2 (Or.inl hb)]
    · rw [fee_of_bad2 (Or.inr (Or.inl hb)), fee_of_bad2 (Or.inr (Or.inl hb))]
    · rw [fee_of_bad2 (Or.inr (Or.inr hb))]
      exact actual_nonneg2 p s2
  · push_neg at hb
    obtain ⟨h0, h1, hs1⟩ := hb
    have hs2 : 0 < s2 := lt_of_lt_of_le hs1 h
    rw [fee_of_good2 h0 h1 hs1, fee_of_good2 h0 h1 hs2]
    have key : p * s1 * nominalFee p ≤ p * s2 * nominalFee p :=
      mul_le_mul_of_nonneg_right (mul_le_mul_of_nonneg_left h h0.le) (nominalFee_nonneg p)
    exact max_le_max key (le_refl _)

end FeesV2

theorem evalCombo_spec {oa pa : List PriceLevel} {f : ℚ → ℚ → ℚ} {dA dB : ℕ}
    {c : Strategy} (h : evalCombo oa pa f dA dB = some c) :
    0 < (calcCumulativeLevel oa dA).totalSize ∧
    0 < (calcCumulativeLevel pa dB).totalSize ∧
    c.opinionLevels = dA ∧ c.polyLevels = dB ∧
    c.opinionAvgPrice = (calcCumulativeLevel oa dA).avgPrice ∧
    c.polyAvgPrice = (calcCumulativeLevel pa dB).avgPrice ∧
    c.shares = min (calcCumulativeLevel oa dA).totalSize (calcCumulativeLevel pa dB).totalSize ∧
    c.costPerShare = c.opinionAvgPrice + c.polyAvgPrice ∧
    c.totalCost = c.costPerShare * c.shares ∧
    c.fee = calcMultiLevelFee (calcCumulativeLevel oa dA).levelDetails c.shares f ∧
    c.profit = c.shares - c.totalCost - c.fee ∧
    c.profitPct = (if 0 < c.totalCost then c.profit / c.totalCost else -999) := by
  simp only [evalCombo] at h
  split at h
  · exact absurd h (by simp)
  · next hg =>
    push_neg at hg
    obtain ⟨hA, hB⟩ := hg
    rw [Option.some.injEq] at h
    subst h
    exact ⟨hA, hB, rfl, rfl, rfl, rfl, rfl, rfl, rfl, rfl, rfl, rfl⟩

theorem feeWalk_eq_plan_sum (f : ℚ → ℚ → ℚ) :
    ∀ (levels : List PriceLevel) (r : ℚ),
      feeWalk f levels r =
        ((specConsumptionPlan levels r).map (fun l => f l.price l.size)).sum
  | [], r => by simp [feeWalk, specConsumptionPlan]
  | l :: rest, r => by
    simp only [feeWalk, specConsumptionPlan]
    split_ifs with h1 h2
    · simp
    · exact feeWalk_eq_plan_sum f rest r
    · simp [feeWalk_eq_plan_sum f rest (r - min l.size r)]

theorem calcMultiLevelFee_eq_plan_sum (levels : List PriceLevel) (r : ℚ)
    (f : ℚ → ℚ → ℚ) :
    calcMultiLevelFee levels r f =
      ((specConsumptionPlan levels r).map (fun l => f l.price l.size)).sum := by
  unfold calcMultiLevelFee
  split_ifs with h
  · rcases h with h | h
    · subst h
      simp [specConsumptionPlan]
    · cases levels with
      | nil => simp [specConsumptionPlan]
      | cons l rest => simp [specConsumptionPlan, if_pos h]
  · exact feeWalk_eq_plan_sum f levels r

theorem specConsumptionPlan_sizes_le :
    ∀ (levels : List PriceLevel) (r : ℚ), 0 ≤ r →
      ((specConsumptionPlan levels r).map (fun l => l.size)).sum ≤ r
  | [], r, hr => by simpa [specConsumptionPlan] using hr
  | l :: rest, r, hr => by
    simp only [specConsumptionPlan]
    split_ifs with h1 h2
    · simpa using hr
    · exact specConsumptionPlan_sizes_le rest r hr
    · have hs : 0 < min l.size r := lt_of_not_le h2
      have hmin : min l.size r ≤ r := min_le_right _ _
      have hrec := specConsumptionPlan_sizes_le rest (r - min l.size r) (by linarith)
      simp only [List.map_cons, List.sum_cons]
      linarith

theorem feeWalk_full (f : ℚ → ℚ → ℚ) :
    ∀ (fills : List PriceLevel), (∀ l ∈ fills, 0 < l.size) →
      feeWalk f fills ((fills.map (fun l => l.size)).sum) =
        (fills.map (fun l => f l.price l.size)).sum
  | [], _ => by simp [feeWalk]
  | l :: rest, h => by
    have hl : 0 < l.size := h l (by simp)
    have hrest : ∀ x ∈ rest, 0 < x.size := fun x hx => h x (by simp [hx])
    have hsum : 0 ≤ (rest.map (fun x => x.size)).sum := by
      apply List.sum_nonneg
      intro x hx
      obtain ⟨y, hy, rfl⟩ := List.mem_map.mp hx
      exact (hrest y hy).le
    simp only [List.map_cons, List.sum_cons, feeWalk]
    rw [if_neg (not_le.mpr (by linarith))]
    rw [min_eq_left (by linarith)]
    rw [if_neg (not_le.mpr hl)]
    have harith : l.size + (rest.map (fun x => x.size)).sum - l.size =
        (rest.map (fun x => x.size)).sum := by ring
    rw [harith, feeWalk_full f rest hrest]

theorem calcMultiLevelFee_full (f : ℚ → ℚ → ℚ) (fills : List PriceLevel)
    (h : ∀ l ∈ fills, 0 < l.size) :
    calcMultiLevelFee fills ((fills.map (fun l => l.size)).sum) f =
      (fills.map (fun l => f l.price l.size)).sum := by
  cases fills with
  | nil => simp [calcMultiLevelFee]
  | cons l rest =>
    have hl : 0 < l.size := h l (by simp)
    have hrest : ∀ x ∈ rest, 0 < x.size := fun x hx => h x (by simp [hx])
    have hsum : 0 ≤ (rest.map (fun x => x.size)).sum := by
      apply List.sum_nonneg
      intro x hx
      obtain ⟨y, hy, rfl⟩ := List.mem_map.mp hx
      exact (hrest y hy).le
    unfold calcMultiLevelFee
    rw [if_neg]
    · exact feeWalk_full f (l :: rest) h
    · rintro (h1 | h1)
      · exact List.cons_ne_nil l rest h1
      · simp only [List.map_cons, List.sum_cons] at h1
        linarith

theorem foldl_stepBest_from_some {E : ℕ × ℕ → Option Strategy} :
    ∀ (L : List (ℕ × ℕ)) (b : Strategy),
      ∃ r, L.foldl (fun best d => stepBest best (E d)) (some b) = some r ∧
        b.profitPct ≤ r.profitPct
  | [], b => ⟨b, rfl, le_refl _⟩
  | d :: L, b => by
    simp only [List.foldl_cons]
    cases hE : E d with
    | none =>
      simp only [stepBest]
      exact foldl_stepBest_from_some L b
    | some c =>
      simp only [stepBest]
      by_cases hlt : b.profitPct < c.profitPct
      · rw [if_pos hlt]
        obtain ⟨r, hr, hle⟩ := foldl_stepBest_from_some L c
        exact ⟨r, hr, le_trans hlt.le hle⟩
      · rw [if_neg hlt]
        exact foldl_stepBest_from_some L b

theorem foldl_stepBest_mem {E : ℕ × ℕ → Option Strategy} :
    ∀ (L : List (ℕ × ℕ)) (acc : Option Strategy) (d : ℕ × ℕ) (c : Strategy),
      d ∈ L → E d = some c →
      ∃ r, L.foldl (fun best dd => stepBest best (E dd)) acc = some r ∧
        c.profitPct ≤ r.profitPct
  | [], _, _, _, h, _ => absurd h (List.not_mem_nil _)
  | e :: L, acc, d, c, hmem, hE => by
    simp only [List.foldl_cons]
    rcases List.mem_cons.mp hmem with rfl | hmem2
    · rw [hE]
      have hstep : ∃ x, stepBest acc (some c) = some x ∧ c.profitPct ≤ x.profitPct := by
        cases acc with
        | none => exact ⟨c, rfl, le_refl _⟩
        | some a =>
          simp only [stepBest]
          by_cases hlt : a.profitPct < c.profitPct
          · rw [if_pos hlt]
            exact ⟨c, rfl, le_refl _⟩
          · rw [if_neg hlt]
            exact ⟨a, rfl, not_lt.mp hlt⟩
      obtain ⟨x, hx, hcx⟩ := hstep
      rw [hx]
      obtain ⟨r, hr, hxr⟩ := foldl_stepBest_from_some L x
      exact ⟨r, hr, le_trans hcx hxr⟩
    · exact foldl_stepBest_mem L (stepBest acc (E e)) d c hmem2 hE

/-! ## Claims -/

/-- C1 counterexample: on ask books A-YES `45¢ x 100` and B-NO `52¢ x 100`,
`findBestStrategy` reports `totalCost = 97` (the fee is *not* folded into
`totalCost`), under either fee variant, so the claimed `totalCost = 97.5`
is false. -/
theorem C1_counterexample :
    (findBestStrategy [⟨9/20, 100⟩] [⟨13/25, 100⟩] opCalcFeeV1).map Strategy.totalCost =
      some 97 ∧
    (findBestStrategy [⟨9/20, 100⟩] [⟨13/25, 100⟩] opCalcFeeV2).map Strategy.totalCost =
      some 97 ∧
    (97 : ℚ) ≠ 195 / 2 := by
  refine ⟨by decide, by decide, by decide⟩

/-- C1 (amended): on ask books A-YES `45¢ x 100` and B-NO `52¢ x 100` with
`k = 0.08` and `MIN_FEE = 0.50`, the engine (rebate fee variant) computes
fee `0.5`, `totalCost = 97` (fee accounted separately), `profit = 2.5`, and
`profitPct = 5/194 ≈ 2.58%`, classified `GO` (threshold 2%), not `HOT`
(threshold 5%). -/
theorem C1_engine_example :
    findBestStrategy [⟨9/20, 100⟩] [⟨13/25, 100⟩] opCalcFeeV1 =
      some ⟨1, 1, 9/20, 13/25, 100, 97/100, 97, 1/2, 5/2, 5/194⟩ ∧
    classifySignal (5/194) = Signal.GO := by
  refine ⟨by decide, by decide⟩

/-- C2: for every depth combination accepted by the strategy search, the
strategy fee equals the sum of per-level Opinion fees over the consumption
plan of the spec (walk `levelDetails` in order, consume
`min(levelSize, remaining)` per level at the own price of that level), and
the plan consumes at most the shares of the strategy. -/
theorem C2_multilevel_fee (oa pa : List PriceLevel) (dA dB : ℕ) (c : Strategy)
    (h : evalCombo oa pa opCalcFeeV2 dA dB = some c) :
    c.fee = ((specConsumptionPlan (calcCumulativeLevel oa dA).levelDetails c.shares).map
        (fun l => opCalcFeeV2 l.price l.size)).sum ∧
    ((specConsumptionPlan (calcCumulativeLevel oa dA).levelDetails c.shares).map
        (fun l => l.size)).sum ≤ c.shares := by
  obtain ⟨hA, hB, _, _, _, _, hshares, _, _, hfee, _, _⟩ := evalCombo_spec h
  constructor
  · rw [hfee]
    exact calcMultiLevelFee_eq_plan_sum _ _ _
  · apply specConsumptionPlan_sizes_le
    rw [hshares]
    exact (lt_min hA hB).le

/-- C2 witness: the theorem instantiated on the concrete book
`[45¢ x 100]` versus `[52¢ x 100]` at depths `(1,1)`. -/
theorem C2_multilevel_fee_witness :
    evalCombo [⟨9/20, 100⟩] [⟨13/25, 100⟩] opCalcFeeV2 1 1 =
      some ⟨1, 1, 9/20, 13/25, 100, 97/100, 97, 891/1000, 2109/1000, 2109/97000⟩ ∧
    ((891 : ℚ) / 1000 =
      ((specConsumptionPlan (calcCumulativeLevel [⟨9/20, 100⟩] 1).levelDetails 100).map
        (fun l => opCalcFeeV2 l.price l.size)).sum ∧
     ((specConsumptionPlan (calcCumulativeLevel [⟨9/20, 100⟩] 1).levelDetails 100).map
        (fun l => l.size)).sum ≤ (100 : ℚ)) :=
  ⟨by decide, C2_multilevel_fee [⟨9/20, 100⟩] [⟨13/25, 100⟩] 1 1
    ⟨1, 1, 9/20, 13/25, 100, 97/100, 97, 891/1000, 2109/1000, 2109/97000⟩ (by decide)⟩

/-- C3 counterexample: on the books `[{price 0, size 1}]` on both legs every
combination is accepted (positive size) with `totalCost = 0`, so the search
returns a strategy whose `profitPct` is the `-999` sentinel — a
sentinel-valued combination *can* be the returned best strategy. -/
theorem C3_counterexample :
    (findBestStrategy [⟨0, 1⟩] [⟨0, 1⟩] opCalcFeeV2).map Strategy.profitPct =
      some (-999) := by
  decide

/-- C3 (amended): every accepted depth combination carries
`shares = min(totalSizeA, totalSizeB)`,
`totalCost = (avgPriceA + avgPriceB) * shares`,
`profit = shares - totalCost - fee`, and
`profitPct = profit / totalCost` when `totalCost > 0` else the `-999`
sentinel; and the returned best strategy has `profitPct` at least that of
every evaluated combination (a sentinel combination is returned only when
nothing beats it). -/
theorem C3_combo_formulas (oa pa : List PriceLevel) (f : ℚ → ℚ → ℚ)
    (dA dB : ℕ) (c : Strategy) (h : evalCombo oa pa f dA dB = some c) :
    (c.shares = min (calcCumulativeLevel oa dA).totalSize
        (calcCumulativeLevel pa dB).totalSize ∧
     c.totalCost = ((calcCumulativeLevel oa dA).avgPrice +
        (calcCumulativeLevel pa dB).avgPrice) * c.shares ∧
     c.profit = c.shares - c.totalCost - c.fee ∧
     c.profitPct = (if 0 < c.totalCost then c.profit / c.totalCost else -999)) ∧
    ((dA, dB) ∈ comboOrder →
      ∃ b, findBestStrategy oa pa f = some b ∧ c.profitPct ≤ b.profitPct) := by
  obtain ⟨hA, hB, _, _, hoavg, hpavg, hshares, hcps, htc, _, hprofit, hpct⟩ :=
    evalCombo_spec h
  refine ⟨⟨hshares, ?_, hprofit, hpct⟩, ?_⟩
  · rw [htc, hcps, hoavg, hpavg]
  · intro hmem
    unfold findBestStrategy
    exact foldl_stepBest_mem comboOrder none (dA, dB) c hmem h

/-- C3 witness: the theorem instantiated on the book `[50¢ x 20]` on both
legs at depths `(1,1)`. -/
theorem C3_combo_formulas_witness :
    evalCombo [⟨1/2, 20⟩] [⟨1/2, 20⟩] opCalcFeeV2 1 1 =
      some ⟨1, 1, 1/2, 1/2, 20, 1, 20, 1/2, -(1/2), -(1/40)⟩ ∧
    ∃ b, findBestStrategy [⟨1/2, 20⟩] [⟨1/2, 20⟩] opCalcFeeV2 = some b ∧
      ((-(1/40) : ℚ)) ≤ b.profitPct := by
  constructor
  · decide
  · exact (C3_combo_formulas [⟨1/2, 20⟩] [⟨1/2, 20⟩] opCalcFeeV2 1 1
      ⟨1, 1, 1/2, 1/2, 20, 1, 20, 1/2, -(1/2), -(1/40)⟩ (by decide)).2 (by decide)

/-- C4 counterexample: two levels `40¢ x 65` and `90¢ x 74`, each with the
`MIN_FEE` floor binding, total 139 shares. The multi-level fee is exactly
`$1`, yet the single-level fee at the blended size-weighted average price
`463/695 ≈ 66.6¢` for 139 shares exceeds it — the claimed inequality fails
even though the floor binds on more than one level. -/
theorem C4_counterexample :
    (FeesV2.calcOpinionTradeFee (2/5) 65).isMinFee = true ∧
    (FeesV2.calcOpinionTradeFee (9/10) 74).isMinFee = true ∧
    (calcCumulativeLevel [⟨2/5, 65⟩, ⟨9/10, 74⟩] 2).totalSize = 139 ∧
    calcMultiLevelFee [⟨2/5, 65⟩, ⟨9/10, 74⟩] 139 opCalcFeeV2 = 1 ∧
    calcMultiLevelFee [⟨2/5, 65⟩, ⟨9/10, 74⟩] 139 opCalcFeeV2 <
      (FeesV2.calcOpinionTradeFee
        ((calcCumulativeLevel [⟨2/5, 65⟩, ⟨9/10, 74⟩] 2).avgPrice) 139).actualFee := by
  refine ⟨by decide, by decide, by decide, by decide, by decide⟩

/-- C4 (amended): for fills with prices in `(0,1)` and positive sizes fully
consumed by the walk, the multi-level fee dominates the single-level fee at
any blended price `q` *provided* the pre-floor fee at `q` is at most the sum
of the per-level pre-floor fees (in particular when all fills share one
price); without that proviso the inequality can fail. -/
theorem C4_blended_fee_bound (fills : List PriceLevel) (S q : ℚ)
    (hne : fills ≠ [])
    (hgood : ∀ l ∈ fills, 0 < l.price ∧ l.price < 1 ∧ 0 < l.size)
    (hS : S = (fills.map (fun l => l.size)).sum)
    (hblend : (FeesV2.calcOpinionTradeFee q S).calculatedFee ≤
        (fills.map (fun l =>
          (FeesV2.calcOpinionTradeFee l.price l.size).calculatedFee)).sum) :
    (FeesV2.calcOpinionTradeFee q S).actualFee ≤
      calcMultiLevelFee fills S opCalcFeeV2 := by
  subst hS
  have hsizes : ∀ l ∈ fills, 0 < l.size := fun l hl => (hgood l hl).2.2
  rw [calcMultiLevelFee_full opCalcFeeV2 fills hsizes]
  have hsum_calc_le :
      (fills.map (fun l =>
          (FeesV2.calcOpinionTradeFee l.price l.size).calculatedFee)).sum ≤
        (fills.map (fun l => opCalcFeeV2 l.price l.size)).sum := by
    apply List.sum_le_sum
    intro l hl
    exact FeesV2.calc_le_actual2 l.price l.size
  have hsum_nonneg : 0 ≤ (fills.map (fun l => opCalcFeeV2 l.price l.size)).sum := by
    apply List.sum_nonneg
    intro x hx
    obtain ⟨y, hy, rfl⟩ := List.mem_map.mp hx
    exact FeesV2.actual_nonneg2 y.price y.size
  have hmin_le_sum :
      FeesV2.MIN_FEE_USD ≤ (fills.map (fun l => opCalcFeeV2 l.price l.size)).sum := by
    cases fills with
    | nil => exact absurd rfl hne
    | cons l rest =>
      have hl := hgood l (by simp)
      have hrest : 0 ≤ (rest.map (fun x => opCalcFeeV2 x.price x.size)).sum := by
        apply List.sum_nonneg
        intro x hx
        obtain ⟨y, hy, rfl⟩ := List.mem_map.mp hx
        exact FeesV2.actual_nonneg2 y.price y.size
      have hhead : FeesV2.MIN_FEE_USD ≤ opCalcFeeV2 l.price l.size :=
        FeesV2.min_le_actual2 hl.1 hl.2.1 hl.2.2
      simp only [List.map_cons, List.sum_cons]
      linarith
  by_cases hb : q ≤ 0 ∨ 1 ≤ q ∨ (fills.map (fun l => l.size)).sum ≤ 0
  · rw [FeesV2.fee_of_bad2 hb]
    exact hsum_nonneg
  · push_neg at hb
    obtain ⟨hq0, hq1, hS0⟩ := hb
    have hcalc : (FeesV2.calcOpinionTradeFee q ((fills.map (fun l => l.size)).sum)).calculatedFee =
        q * ((fills.map (fun l => l.size)).sum) * FeesV2.nominalFee q := by
      rw [FeesV2.fee_of_good2 hq0 hq1 hS0]
    rw [FeesV2.fee_of_good2 hq0 hq1 hS0]
    apply max_le
    · rw [hcalc] at hblend
      exact le_trans hblend hsum_calc_le
    · exact hmin_le_sum

/-- C4 witness: the theorem instantiated on the single fill `50¢ x 10` with
`q` the (trivially) blended price `50¢`. -/
theorem C4_blended_fee_bound_witness :
    (FeesV2.calcOpinionTradeFee (1/2) 10).actualFee ≤
      calcMultiLevelFee [⟨1/2, 10⟩] 10 opCalcFeeV2 :=
  C4_blended_fee_bound [⟨1/2, 10⟩] 10 (1/2) (by decide) (by decide) (by decide)
    (by decide)

/-- C5: for every hedge position and quote snapshot, the exit record of
`usePositions` has `canExit = true` exactly when `netProfit > 0` and
`exitPriceSum ≥ exitThreshold`; in particular `canExit` is `false` whenever
`exitPriceSum < exitThreshold`, regardless of the sign of `netProfit`. -/
theorem C5_can_exit (opinionAvg otherAvg opinionBid otherBid
    opinionShares otherShares th : ℚ) :
    ((computeExitProfit opinionAvg otherAvg opinionBid otherBid
        opinionShares otherShares th).canExit = true ↔
      (0 < (computeExitProfit opinionAvg otherAvg opinionBid otherBid
          opinionShares otherShares th).netProfit ∧
       th ≤ (computeExitProfit opinionAvg otherAvg opinionBid otherBid
          opinionShares otherShares th).exitPriceSum)) ∧
    ((computeExitProfit opinionAvg otherAvg opinionBid otherBid
        opinionShares otherShares th).exitPriceSum < th →
      (computeExitProfit opinionAvg otherAvg opinionBid otherBid
        opinionShares otherShares th).canExit = false) := by
  constructor
  · simp [computeExitProfit]
  · intro hlt
    simp only [computeExitProfit] at hlt ⊢
    have h2 : decide (th ≤ opinionBid + otherBid) = false :=
      decide_eq_false (not_le.mpr hlt)
    rw [h2, Bool.and_false]

/-- C5 witness: a snapshot with `exitPriceSum = 0.97 < 0.98` has
`canExit = false`. -/
theorem C5_can_exit_witness :
    (computeExitProfit (9/20) (49/100) (12/25) (49/100) 100 100 (98/100)).canExit =
      false :=
  (C5_can_exit (9/20) (49/100) (12/25) (49/100) 100 100 (98/100)).2 (by decide)

/-- C6 counterexample: `calcAPY` zeroes out non-positive `profitPct`: at
`profitPct = -1%` and 10 days it returns `0`, not
`profitPct * (365 / 10) = -0.365`, so the claim does not hold for *every*
value of `profitPct`. -/
theorem C6_counterexample :
    calcAPY (-(1/100)) (some 10) = 0 ∧ ((-(1/100) : ℚ)) * (365 / 10) ≠ 0 := by
  refine ⟨by decide, by norm_num⟩

/-- C6 (amended): with days to settlement known and positive and
`profitPct > 0`, `calcAPY = profitPct * (365 / daysToSettlement)`; when
`profitPct ≤ 0`, days `≤ 0`, or days unknown, the result is `0`. The days
figure is the ceiling of the midnight-truncated date difference, kept only
when strictly positive. -/
theorem C6_apy (pct : ℚ) (d s t : ℤ) :
    (0 < pct → 0 < d → calcAPY pct (some d) = pct * (365 / (d : ℚ))) ∧
    (pct ≤ 0 → calcAPY pct (some d) = 0) ∧
    (d ≤ 0 → calcAPY pct (some d) = 0) ∧
    calcAPY pct none = 0 ∧
    (0 < Int.ceil (((s - t : ℤ) : ℚ) / msPerDay) →
      getDaysToSettlement s t = some (Int.ceil (((s - t : ℤ) : ℚ) / msPerDay))) ∧
    (Int.ceil (((s - t : ℤ) : ℚ) / msPerDay) ≤ 0 →
      getDaysToSettlement s t = none) := by
  refine ⟨?_, ?_, ?_, rfl, ?_, ?_⟩
  · intro h1 h2
    simp only [calcAPY]
    rw [if_neg]
    push_neg
    exact ⟨h2, h1⟩
  · intro h
    simp only [calcAPY]
    rw [if_pos (Or.inr h)]
  · intro h
    simp only [calcAPY]
    rw [if_pos (Or.inl h)]
  · intro h
    simp only [getDaysToSettlement]
    rw [if_pos h]
  · intro h
    simp only [getDaysToSettlement]
    rw [if_neg (not_lt.mpr h)]

/-- C6 witness: `10%` over 5 days annualizes to `10% * 365/5`; a negative
day count yields `0`; one day of difference yields `some 1`. -/
theorem C6_apy_witness :
    calcAPY (1/10) (some 5) = (1/10) * (365 / 5) ∧
    calcAPY (1/10) (some (-3)) = 0 ∧
    getDaysToSettlement 86400000 0 = some 1 := by
  have h := C6_apy (1/10) 5 86400000 0
  have hn := C6_apy (1/10) (-3) 86400000 0
  refine ⟨h.1 (by norm_num) (by norm_num), hn.2.2.1 (by norm_num), ?_⟩
  have hq : (((86400000 - 0 : ℤ) : ℚ) / msPerDay) = 1 := by
    norm_num [msPerDay]
  have h3 := h.2.2.2.2.1
  rw [hq, Int.ceil_one] at h3
  exact h3 (by norm_num)

/-- C7: for fixed price the trade fee is non-decreasing in the share count,
and for `s > 0` and `0 < p < 1` it is at least the `$0.50` floor — for both
fee variants. -/
theorem C7_fee_monotone_floor (p s1 s2 : ℚ) :
    (s1 ≤ s2 →
      (FeesV1.calcOpinionTradeFee p s1).actualFee ≤
        (FeesV1.calcOpinionTradeFee p s2).actualFee ∧
      (FeesV2.calcOpinionTradeFee p s1).actualFee ≤
        (FeesV2.calcOpinionTradeFee p s2).actualFee) ∧
    (0 < p → p < 1 → 0 < s1 →
      FeesV1.MIN_FEE_USD ≤ (FeesV1.calcOpinionTradeFee p s1).actualFee ∧
      FeesV2.MIN_FEE_USD ≤ (FeesV2.calcOpinionTradeFee p s1).actualFee) :=
  ⟨fun h => ⟨FeesV1.actual_mono1 p h, FeesV2.actual_mono2 p h⟩,
   fun h0 h1 hs => ⟨FeesV1.min_le_actual1 h0 h1 hs, FeesV2.min_le_actual2 h0 h1 hs⟩⟩

/-- C7 witness: the theorem instantiated at `p = 50¢`, `s1 = 1`, `s2 = 2`. -/
theorem C7_fee_monotone_floor_witness :
    ((FeesV1.calcOpinionTradeFee (1/2) 1).actualFee ≤
        (FeesV1.calcOpinionTradeFee (1/2) 2).actualFee ∧
     (FeesV2.calcOpinionTradeFee (1/2) 1).actualFee ≤
        (FeesV2.calcOpinionTradeFee (1/2) 2).actualFee) ∧
    (FeesV1.MIN_FEE_USD ≤ (FeesV1.calcOpinionTradeFee (1/2) 1).actualFee ∧
     FeesV2.MIN_FEE_USD ≤ (FeesV2.calcOpinionTradeFee (1/2) 1).actualFee) :=
  ⟨(C7_fee_monotone_floor (1/2) 1 2).1 (by norm_num),
   (C7_fee_monotone_floor (1/2) 1 2).2 (by norm_num) (by norm_num) (by norm_num)⟩

/-- C9: `calcOpinionTradeFee` is total; out-of-range price or non-positive
shares yield the all-zero record with `isMinFee = false`; in range,
`actualFee = max(calculatedFee, 0.5)` with `isMinFee` exactly when the
calculated fee is below the floor; and always
`0 ≤ calculatedFee ≤ actualFee` — for both fee variants. -/
theorem C9_fee_total (p s : ℚ) :
    ((p ≤ 0 ∨ 1 ≤ p ∨ s ≤ 0) →
      FeesV1.calcOpinionTradeFee p s = ⟨0, 0, 0, false⟩ ∧
      FeesV2.calcOpinionTradeFee p s = ⟨0, 0, 0, false⟩) ∧
    (0 < p → p < 1 → 0 < s →
      ((FeesV1.calcOpinionTradeFee p s).actualFee =
          max (FeesV1.calcOpinionTradeFee p s).calculatedFee FeesV1.MIN_FEE_USD ∧
       ((FeesV1.calcOpinionTradeFee p s).isMinFee = true ↔
          (FeesV1.calcOpinionTradeFee p s).calculatedFee < FeesV1.MIN_FEE_USD) ∧
       (FeesV2.calcOpinionTradeFee p s).actualFee =
          max (FeesV2.calcOpinionTradeFee p s).calculatedFee FeesV2.MIN_FEE_USD ∧
       ((FeesV2.calcOpinionTradeFee p s).isMinFee = true ↔
          (FeesV2.calcOpinionTradeFee p s).calculatedFee < FeesV2.MIN_FEE_USD))) ∧
    (0 ≤ (FeesV1.calcOpinionTradeFee p s).calculatedFee ∧
     (FeesV1.calcOpinionTradeFee p s).calculatedFee ≤
        (FeesV1.calcOpinionTradeFee p s).actualFee ∧
     0 ≤ (FeesV2.calcOpinionTradeFee p s).calculatedFee ∧
     (FeesV2.calcOpinionTradeFee p s).calculatedFee ≤
        (FeesV2.calcOpinionTradeFee p s).actualFee) := by
  refine ⟨fun h => ⟨FeesV1.fee_of_bad1 h, FeesV2.fee_of_bad2 h⟩, ?_,
    FeesV1.calc_nonneg1 p s, FeesV1.calc_le_actual1 p s,
    FeesV2.calc_nonneg2 p s, FeesV2.calc_le_actual2 p s⟩
  intro h0 h1 hs
  refine ⟨?_, ?_, ?_, ?_⟩
  · rw [FeesV1.fee_of_good1 h0 h1 hs]
  · rw [FeesV1.fee_of_good1 h0 h1 hs]
    simp
  · rw [FeesV2.fee_of_good2 h0 h1 hs]
  · rw [FeesV2.fee_of_good2 h0 h1 hs]
    simp

/-- C9 witness: the theorem instantiated at the out-of-range price `2` and
at the in-range input `(50¢, 100)`. -/
theorem C9_fee_total_witness :
    (FeesV1.calcOpinionTradeFee 2 1 = ⟨0, 0, 0, false⟩ ∧
     FeesV2.calcOpinionTradeFee 2 1 = ⟨0, 0, 0, false⟩) ∧
    ((FeesV1.calcOpinionTradeFee (1/2) 100).actualFee =
        max (FeesV1.calcOpinionTradeFee (1/2) 100).calculatedFee FeesV1.MIN_FEE_USD ∧
     ((FeesV1.calcOpinionTradeFee (1/2) 100).isMinFee = true ↔
        (FeesV1.calcOpinionTradeFee (1/2) 100).calculatedFee < FeesV1.MIN_FEE_USD) ∧
     (FeesV2.calcOpinionTradeFee (1/2) 100).actualFee =
        max (FeesV2.calcOpinionTradeFee (1/2) 100).calculatedFee FeesV2.MIN_FEE_USD ∧
     ((FeesV2.calcOpinionTradeFee (1/2) 100).isMinFee = true ↔
        (FeesV2.calcOpinionTradeFee (1/2) 100).calculatedFee < FeesV2.MIN_FEE_USD)) :=
  ⟨(C9_fee_total 2 1).1 (by norm_num),
   (C9_fee_total (1/2) 100).2.1 (by norm_num) (by norm_num) (by norm_num)⟩

theorem evalCombo_empty_poly (oa : List PriceLevel) (f : ℚ → ℚ → ℚ)
    (dA dB : ℕ) : evalCombo oa [] f dA dB = none := by
  simp [evalCombo, calcCumulativeLevel]

/-- C8 counterexample: with the B-NO book absent the direction is evaluated
against an empty ask list and yields no strategy at all — no `1 - YES`
derivation happens — although the same YES book against an explicit NO book
at `55¢ = 1 - 45¢` would produce a strategy. -/
theorem C8_counterexample :
    strategyWithNoBook [⟨9/20, 100⟩] none opCalcFeeV2 = none ∧
    findBestStrategy [⟨9/20, 100⟩] [⟨11/20, 100⟩] opCalcFeeV2 ≠ none := by
  refine ⟨by decide, by decide⟩

/-- C8 (amended): when the complementary NO-side book is absent, the engine
substitutes an empty ask list, every depth combination is rejected for zero
size, and the hedge direction is discarded (`null`); the `1 - YES` fallback
exists only in the display string, not in evaluation. -/
theorem C8_no_book_discarded (yesAsks : List PriceLevel) (f : ℚ → ℚ → ℚ) :
    strategyWithNoBook yesAsks none f = none := by
  unfold strategyWithNoBook asksOf findBestStrategy
  simp [comboOrder, evalCombo_empty_poly, stepBest]

theorem sortLE_trans (k : SortKey) (a b c : Opportunity)
    (hab : sortLE k a b = true) (hbc : sortLE k b c = true) :
    sortLE k a c = true := by
  simp only [sortLE] at hab hbc ⊢
  by_cases h1 : keyOf k a = keyOf k b
  · by_cases h2 : keyOf k b = keyOf k c
    · rw [if_pos h1] at hab
      rw [if_pos h2] at hbc
      rw [if_pos (h1.trans h2)]
      simp only [decide_eq_true_eq] at hab hbc ⊢
      exact le_trans hab hbc
    · rw [if_neg h2] at hbc
      simp only [decide_eq_true_eq] at hbc
      rw [← h1] at hbc
      rw [if_neg (ne_of_gt hbc)]
      simp only [decide_eq_true_eq]
      exact hbc
  · by_cases h2 : keyOf k b = keyOf k c
    · rw [if_neg h1] at hab
      simp only [decide_eq_true_eq] at hab
      rw [h2] at hab
      rw [if_neg (ne_of_gt hab)]
      simp only [decide_eq_true_eq]
      exact hab
    · rw [if_neg h1] at hab
      rw [if_neg h2] at hbc
      simp only [decide_eq_true_eq] at hab hbc
      have hlt : keyOf k c < keyOf k a := lt_trans hbc hab
      rw [if_neg (ne_of_gt hlt)]
      simp only [decide_eq_true_eq]
      exact hlt

theorem sortLE_total (k : SortKey) (a b : Opportunity) :
    (sortLE k a b || sortLE k b a) = true := by
  simp only [sortLE]
  by_cases h : keyOf k a = keyOf k b
  · rw [if_pos h, if_pos h.symm]
    rcases le_total a.outcome b.outcome with hle | hle
    · simp [hle]
    · simp [hle]
  · rw [if_neg h, if_neg (Ne.symm h)]
    rcases lt_or_gt_of_ne h with hlt | hlt
    · simp [hlt]
    · simp [hlt]

/-- C10: `sortOpportunities` returns a permutation of its input ordered by
the requested key (descending) with the outcome name as tiebreaker; the
input list itself is left untouched (the source sorts a spread copy, and
the embedding is pure). -/
theorem C10_sort (l : List Opportunity) (k : SortKey) :
    (sortOpportunities l k).Perm l ∧
    (sortOpportunities l k).Pairwise (fun a b => sortLE k a b = true) := by
  constructor
  · exact List.mergeSort_perm l (sortLE k)
  · exact List.sorted_mergeSort (fun a b c => sortLE_trans k a b c)
      (fun a b => sortLE_total k a b) l

end CMARB
